import Mathlib

/-!
# A verification development for the Floyd chess engine core

Shallow embedding, in Lean, of the transposition table (`Source/ttable.c`)
and of the move-encoding macros (`Source/Board.h`) of the Floyd chess
engine, together with theorems checking the natural-language specification
of these components against the code.

Machine integers are modelled as `Nat` (for the unsigned 64-bit values:
hashes, keys, masks, sizes) and `Int` (for the C `int` values: scores,
depths, priorities).  Bitwise operations use Lean's `Nat` bitwise
operators, which agree with the C operators on in-range values.
-/

namespace Floyd

/-! ## Move encoding (Source/Board.h)

```
#define boardBits  6
#define move(from, to)          (((from) << boardBits) | (to))
enum moveFlags {
        specialMoveFlag         = 1 << (2*boardBits),
        promotionBits           = 2*boardBits + 1,
        queenPromotionFlags     = 0 << promotionBits,
        rookPromotionFlags      = 1 << promotionBits,
        bishopPromotionFlags    = 2 << promotionBits,
        knightPromotionFlags    = 3 << promotionBits
};
#define specialMove(from, to)   (specialMoveFlag | move(from, to))
#define from(move)              (((move) >> boardBits) & ~(~0<<boardBits))
#define to(move)                ( (move)               & ~(~0<<boardBits))
```
In C, `~(~0 << boardBits)` evaluates (on two's complement `int`) to
`2^boardBits - 1 = 63`.  `from` and `to` are reserved-ish names in Lean,
so the accessors are called `moveFrom` and `moveTo`. -/

def boardBits : Nat := 6

def move (f t : Nat) : Nat := (f <<< boardBits) ||| t

def specialMoveFlag : Nat := 1 <<< (2 * boardBits)

def promotionBits : Nat := 2 * boardBits + 1

def queenPromotionFlags : Nat := 0 <<< promotionBits

def rookPromotionFlags : Nat := 1 <<< promotionBits

def bishopPromotionFlags : Nat := 2 <<< promotionBits

def knightPromotionFlags : Nat := 3 <<< promotionBits

def specialMove (f t : Nat) : Nat := specialMoveFlag ||| move f t

/-- `from(move)`: in C the mask `~(~0 << boardBits)` is `63`. -/
def moveFrom (m : Nat) : Nat := (m >>> boardBits) &&& (2 ^ boardBits - 1)

/-- `to(move)`: in C the mask `~(~0 << boardBits)` is `63`. -/
def moveTo (m : Nat) : Nat := m &&& (2 ^ boardBits - 1)

/-! ## C struct layout (Source/Engine.h)

`ttSetSize` asserts `sizeof(struct ttSlot) == 2 * sizeof(uint64_t)`.
We model the standard C struct layout algorithm (each member is placed at
the next offset aligned to the member's alignment; the struct size is the
end offset rounded up to the maximal member alignment) for a list of
members given by (size, alignment), on the usual LP64 ABI where
`sizeof(uint64_t) = 8` with alignment 8 and `sizeof(short) = 2` with
alignment 2. -/

structure CMember where
  size : Nat
  align : Nat
deriving DecidableEq

/-- Round `off` up to the next multiple of `a`. -/
def alignUp (off a : Nat) : Nat := (off + a - 1) / a * a

/-- Size of a C struct with the given member list, per the standard layout
algorithm. -/
def cStructSize (members : List CMember) : Nat :=
  let fin := members.foldl
    (fun (acc : Nat × Nat) m => (alignUp acc.1 m.align + m.size, max acc.2 m.align))
    (0, 1)
  alignUp fin.1 fin.2

def uint64Bytes : Nat := 8

def shortBytes : Nat := 2

/-- The members of `struct ttSlot` as declared in `Source/Engine.h`:
`uint64_t hash; short loScore, hiScore; short move; unsigned short prio;`. -/
def ttSlotMembers : List CMember :=
  [⟨uint64Bytes, uint64Bytes⟩,  -- uint64_t hash
   ⟨shortBytes, shortBytes⟩,    -- short loScore
   ⟨shortBytes, shortBytes⟩,    -- short hiScore
   ⟨shortBytes, shortBytes⟩,    -- short move
   ⟨shortBytes, shortBytes⟩]    -- unsigned short prio

/-- `sizeof(struct ttSlot)` for the layout declared in `Source/Engine.h`. -/
def ttSlotSizeof : Nat := cStructSize ttSlotMembers

/-! ## Transposition table model (Source/ttable.c)

`ttable.c` manipulates a slot type whose `data` word overlays the packed
fields `score`, `depth`, `move`, `date` and the four bound flags (the
union declaring this packing lives in a header revision that is not among
the sources; the fields and their use are taken from `ttable.c` itself).
The packed fields are modelled as a record `TTData`; the 64-bit `data`
view of the record is an arbitrary packing function `pack : TTData → Nat`
over which every theorem is universally quantified. -/

def bucketLen : Nat := 4

/-- Modelled from the spec: the data half of a TT slot, "64 bits of `data`
subdivided into `score`, `depth`, `move`, and a packed `prio`/`date` with
`isUpperBound`, `isLowerBound`, `isHardBound`, `isWinLossScore` flags".
The field set and types follow the accesses in `ttable.c`. -/
structure TTData where
  score : Int
  depth : Int
  move : Nat
  date : Nat
  isUpperBound : Bool
  isLowerBound : Bool
  isHardBound : Bool
  isWinLossScore : Bool
deriving DecidableEq

/-- The all-zero data word (`.data = 0`). -/
def TTData.empty : TTData := ⟨0, 0, 0, 0, false, false, false, false⟩

/-- A TT slot: 64-bit `key` plus the data word. -/
structure TTSlot where
  key : Nat
  data : TTData
deriving DecidableEq

/-- `struct ttable`: the slot array is modelled as a total function from
index to slot (C array accesses in `ttable.c` are in-bounds for
well-formed mask/size values); `allocated` models `slots != NULL`. -/
structure TTable where
  slots : Nat → TTSlot
  size : Nat
  mask : Nat
  now : Nat
  baseHash : Nat
  allocated : Bool

/-- The engine fields that `ttable.c` reads: the board's Zobrist `hash`
(modelled from the spec: the board struct revision among the sources
predates the `hash` field), `halfmoveClock`, `plyNumber`, and
`rootPlyNumber` (modelled from the spec: distance from root is
`plyNumber - rootPlyNumber`). -/
structure Engine where
  boardHash : Nat
  halfmoveClock : Int
  plyNumber : Int
  rootPlyNumber : Int
  tt : TTable

/-- The score/encoding constants used by `ttable.c` (`maxEval`, `minEval`,
`maxDtz`, `minDtz`, `ttDepthBits`, `ttDateBits`); their values live in a
header revision not among the sources, so the development is universally
quantified over them. -/
structure TTConsts where
  maxEval : Int
  minEval : Int
  maxDtz : Int
  minDtz : Int
  ttDepthBits : Nat
  ttDateBits : Nat

/-- Modelled from the spec: `ply(self)`, the "distance from root". -/
def ply (E : Engine) : Int := E.plyNumber - E.rootPlyNumber

/-- C `maxInt` (INT_MAX). -/
def maxInt : Int := 2 ^ 31 - 1

/-- `prio` from ttable.c, on a slot value:
`age = (now - slot->date) & ones(ttDateBits); (-age << ttDepthBits) + slot->depth`.
On two's complement ints, masking with `ones(ttDateBits)` is reduction mod
`2^ttDateBits`, and the left shift multiplies by `2^ttDepthBits`. -/
def prioSlot (C : TTConsts) (now : Nat) (s : TTSlot) : Int :=
  let age : Int := ((now : Int) - (s.data.date : Int)) % (2 : Int) ^ C.ttDateBits;
  -age * 2 ^ C.ttDepthBits + s.data.depth

/-- `prio(self, ix)` from ttable.c. -/
def prio (C : TTConsts) (T : TTable) (ix : Nat) : Int := prioSlot C T.now (T.slots ix)

/-! ### ttWrite -/

/-- The preserve-older test at the top of `ttWrite`. -/
def preserveOlder (slot : TTSlot) (score : Int) : Bool :=
  slot.data.isHardBound &&
    ((slot.data.isLowerBound && decide (score ≤ slot.data.score)) ||
     (slot.data.isUpperBound && decide (slot.data.score ≤ score)))

/-- The "Set fields" block of `ttWrite`. -/
def setFields (now : Nat) (d : TTData) (depth score alpha beta : Int) : TTData :=
  { d with
    score := score
    depth := depth
    date := now
    isUpperBound := decide (score ≤ alpha)
    isLowerBound := decide (beta ≤ score)
    isHardBound := false
    isWinLossScore := false }

/-- The condition under which `ttWrite` refuses to store a DTZ value on the
high side (`score > maxEval + 1`, `halfmoveClock == 0`, `score <= maxDtz`). -/
def refuseHi (C : TTConsts) (E : Engine) (score : Int) : Bool :=
  decide (C.maxEval + 1 < score) && decide (E.halfmoveClock = 0) && decide (score ≤ C.maxDtz)

/-- The symmetric low-side DTZ refusal condition. -/
def refuseLo (C : TTConsts) (E : Engine) (score : Int) : Bool :=
  decide (score < C.minEval - 1) && decide (E.halfmoveClock = 0) && decide (C.minDtz ≤ score)

/-- The `score > maxEval` correction block of `ttWrite` (refusal already
excluded by the caller). -/
def rebaseHi (C : TTConsts) (E : Engine) (score : Int) (d : TTData) : TTData :=
  if C.maxEval < score then
    let d1 := if C.maxEval + 1 < score
      then { d with score := d.score + ply E, isWinLossScore := true } else d
    { d1 with isHardBound := d1.isLowerBound }
  else d

/-- The `score < minEval` correction block of `ttWrite` (refusal already
excluded by the caller). -/
def rebaseLo (C : TTConsts) (E : Engine) (score : Int) (d : TTData) : TTData :=
  if score < C.minEval then
    let d1 := if score < C.minEval - 1
      then { d with score := d.score - ply E, isWinLossScore := true } else d
    { d1 with isHardBound := d1.isUpperBound }
  else d

/-- The data word that `ttWrite` stores (when it stores at all). -/
def writeData (C : TTConsts) (E : Engine) (slot : TTSlot)
    (depth score alpha beta : Int) : TTData :=
  rebaseLo C E score (rebaseHi C E score (setFields E.tt.now slot.data depth score alpha beta))

/-- The slot-selection loop of `ttWrite`, carrying `(i, iPrio)`; `fuel`
many indices starting at `j` remain to scan. -/
def selGo (mtch : Nat → Bool) (pr : Nat → Int) : Nat → Nat → Int × Int → Int × Int
  | 0, _, acc => acc
  | fuel + 1, j, acc =>
    if mtch j then ((j : Int), acc.2)
    else if pr j < acc.2 then selGo mtch pr fuel (j + 1) ((j : Int), pr j)
    else selGo mtch pr fuel (j + 1) acc

/-- Does the slot at in-bucket index `j` pass the lockless XOR check
`(local.key ^ local.data) == slot.key`? -/
def slotMatches (pack : TTData → Nat) (T : TTable) (key bucket : Nat) (j : Nat) : Bool :=
  ((T.slots (bucket + j)).key ^^^ pack (T.slots (bucket + j)).data) == key

/-- The in-bucket index `i` chosen by `ttWrite` (`-1` when the loop never
improves on `iPrio = maxInt` and never matches; `assert(i >= 0)` in C). -/
def ttSelect (C : TTConsts) (pack : TTData → Nat) (T : TTable) (key bucket : Nat) : Int :=
  (selGo (slotMatches pack T key bucket) (fun j => prio C T (bucket + j))
    bucketLen 0 (-1, maxInt)).1

/-- `ttWrite` from ttable.c.  Returns the updated engine and the returned
`int`.  The C control flow nests the DTZ refusals inside
`score > maxEval` / `score < minEval`; since the refusal conditions
(`refuseHi`/`refuseLo`) imply those guards and both produce `return score`
before any table access, hoisting them above the correction blocks is
equivalent. -/
def ttWrite (C : TTConsts) (pack : TTData → Nat) (E : Engine) (slot : TTSlot)
    (depth score alpha beta : Int) : Engine × Int :=
  if preserveOlder slot score then (E, slot.data.score)
  else if refuseHi C E score || refuseLo C E score then (E, score)
  else
    let d := writeData C E slot depth score alpha beta
    let bucket := slot.key &&& E.tt.mask
    let i := ttSelect C pack E.tt slot.key bucket
    let ix := ((bucket : Int) + i).toNat
    let w : TTSlot := { key := slot.key ^^^ pack d, data := d }
    ({ E with tt := { E.tt with slots := fun n => if n = ix then w else E.tt.slots n } }, score)

/-! ### ttRead -/

/-- The probe loop of `ttRead`: scan `fuel` slots from in-bucket index `i`,
returning the first slot whose XOR-verified key equals `hash` (with its
`key` field replaced by the verified value, as in the C code). -/
def readGo (pack : TTData → Nat) (T : TTable) (hash bucket : Nat) : Nat → Nat → Option TTSlot
  | 0, _ => none
  | fuel + 1, i =>
    let lcl := T.slots (bucket + i)
    if lcl.key ^^^ pack lcl.data == hash then
      some { lcl with key := lcl.key ^^^ pack lcl.data }
    else readGo pack T hash bucket fuel (i + 1)

/-- `ttRead` from ttable.c. -/
def ttRead (pack : TTData → Nat) (E : Engine) : TTSlot :=
  let hash := E.boardHash ^^^ E.tt.baseHash
  let bucket := hash &&& E.tt.mask
  match readGo pack E.tt hash bucket bucketLen 0 with
  | some lcl =>
    if lcl.data.isWinLossScore then
      let rootDistance := E.plyNumber - E.rootPlyNumber
      { lcl with data := { lcl.data with
          score := lcl.data.score +
            (if 0 ≤ lcl.data.score then -rootDistance else rootDistance) } }
    else lcl
  | none => { key := hash, data := TTData.empty }

/-! ### ttClearFast -/

def word64 : Nat := 2 ^ 64

/-- 64-bit complement (`~` on `uint64_t`). -/
def compl64 (x : Nat) : Nat := x ^^^ (word64 - 1)

/-- Modelled from the spec: `xorshift64star` (its definition lives in
`cplus.h`, which is not among the sources); this is the standard
xorshift64* step on 64-bit values. -/
def xorshift64star (x : Nat) : Nat :=
  let x1 := (x ^^^ (x >>> 12)) % word64
  let x2 := (x1 ^^^ (x1 <<< 25)) % word64
  let x3 := (x2 ^^^ (x2 >>> 27)) % word64
  (x3 * 2685821657736338717) % word64

/-- `ttClearFast` from ttable.c. -/
def ttClearFast (E : Engine) : Engine :=
  { E with tt := { E.tt with baseHash := compl64 (xorshift64star (compl64 E.tt.baseHash)) } }

/-! ### ttSetSize -/

/-- `sizeof(struct ttSlot)` as used for the table-size arithmetic
(asserted `== 2 * sizeof(uint64_t)` at the top of `ttSetSize`). -/
def ttSlotBytes : Nat := 16

/-- The size-doubling loop of `ttSetSize`:
`for (; newSize <= size-newSize; newSize += newSize) newMask = (newMask << 1) + bucketLen;`.
At the call site `0 < newSize ≤ size` holds and is preserved, under which
the C condition (with wrap-free `size_t` subtraction) is
`newSize + newSize ≤ size`.  The loop is written with structural fuel;
`ttSetSize` passes `fuel = size`, which exceeds the iteration count
(`newSize` at least doubles from a positive start each round), so the
fuel never runs out there. -/
def sizeLoop : Nat → Nat → Nat → Nat → Nat × Nat
  | 0, _, newSize, newMask => (newSize, newMask)
  | fuel + 1, size, newSize, newMask =>
    if newSize + newSize ≤ size then
      sizeLoop fuel size (newSize + newSize) ((newMask <<< 1) + bucketLen)
    else (newSize, newMask)

/-- The shrink loop of `ttSetSize` after `k` iterations:
`if (prio(self, i & (newMask+bucketLen-1)) < prio(self, i)) slots[i&(newMask+bucketLen-1)] = slots[i];`
with `tgtMask = newMask + bucketLen - 1`. -/
def shrinkGo (C : TTConsts) (now : Nat) (tgtMask : Nat) (slots : Nat → TTSlot) :
    Nat → (Nat → TTSlot)
  | 0 => slots
  | k + 1 =>
    let s := shrinkGo C now tgtMask slots k
    let tgt := k &&& tgtMask
    if prioSlot C now (s tgt) < prioSlot C now (s k) then
      fun n => if n = tgt then s k else s n
    else s

/-- The expand loop of `ttSetSize` after `k` iterations:
`newSlots[i] = newSlots[i & (self->tt.mask+bucketLen-1)];`
with `srcMask = (old) mask + bucketLen - 1`. -/
def expandGo (srcMask : Nat) (slots : Nat → TTSlot) : Nat → (Nat → TTSlot)
  | 0 => slots
  | k + 1 =>
    let s := expandGo srcMask slots k
    fun n => if n = k then s (k &&& srcMask) else s n

/-- `ttSetSize` from ttable.c.  Reallocation is modelled as always
succeeding at the first requested size and as preserving the slot
contents (the C retry-on-failure loop and `xAbort` are allocator
behaviour outside the model); the `memset` of the first bucket runs
exactly when the table was not yet allocated. -/
def ttSetSize (C : TTConsts) (E : Engine) (reqSize : Nat) : Engine :=
  let base := bucketLen * ttSlotBytes
  let size := max reqSize base
  let nm := sizeLoop size size base 0
  let newSize := nm.1
  let newMask := nm.2
  let slots1 := if newSize < E.tt.size
    then shrinkGo C E.tt.now (newMask + bucketLen - 1) E.tt.slots (E.tt.mask + bucketLen)
    else E.tt.slots
  let slots2 := if E.tt.allocated then slots1
    else fun n => if n < bucketLen then { key := 0, data := TTData.empty } else slots1 n
  let slots3 := if E.tt.size < newSize
    then expandGo (E.tt.mask + bucketLen - 1) slots2 (newMask + bucketLen)
    else slots2
  { E with tt := { slots := slots3, size := newSize, mask := newMask,
                   now := E.tt.now, baseHash := E.tt.baseHash, allocated := true } }

/-! ## Sample values used by the witness theorems -/

/-- A sample packing function for witnesses. -/
def wPack : TTData → Nat := fun d => (d.date + d.move + 3) % word64

/-- Sample score/encoding constants for witnesses. -/
def wConsts : TTConsts :=
  { maxEval := 100, minEval := -100, maxDtz := 200, minDtz := -200,
    ttDepthBits := 8, ttDateBits := 4 }

/-- An empty slot. -/
def wSlot0 : TTSlot := { key := 0, data := TTData.empty }

/-- A sample table for witnesses. -/
def wTable : TTable :=
  { slots := fun _ => wSlot0, size := 64, mask := 0, now := 3, baseHash := 17,
    allocated := true }

/-- A sample engine for witnesses. -/
def wEngine : Engine :=
  { boardHash := 5, halfmoveClock := 7, plyNumber := 9, rootPlyNumber := 4, tt := wTable }

/-- A hard-bound sample slot for the preserve-older witness. -/
def wSlotHard : TTSlot :=
  { key := 5 ^^^ 17,
    data := { score := 10, depth := 2, move := 0, date := 1,
              isUpperBound := false, isLowerBound := true,
              isHardBound := true, isWinLossScore := false } }

/-! ### Counterexample state for the fast-clear claim

`xorshift64star` maps `0` to `0`, so `~xorshift64star(~baseHash)` maps
`baseHash = 2^64 - 1` to itself: `ttClearFast` leaves that `baseHash`
unchanged and a previously written entry is still found afterwards. -/

/-- The fixed-point base hash `2^64 - 1`. -/
def cxOldBase : Nat := word64 - 1

/-- A non-empty data word previously written under `cxOldBase`. -/
def cxData : TTData :=
  { score := 1, depth := 9, move := 0, date := 2,
    isUpperBound := false, isLowerBound := false,
    isHardBound := false, isWinLossScore := false }

/-- The slot as `ttWrite` stored it: `key = probeHash ^ data`. -/
def cxSlot : TTSlot := { key := (5 ^^^ cxOldBase) ^^^ wPack cxData, data := cxData }

/-- An engine whose table holds `cxSlot` for board hash 5 under
`baseHash = cxOldBase`. -/
def cxEngine : Engine :=
  { boardHash := 5, halfmoveClock := 7, plyNumber := 9, rootPlyNumber := 4,
    tt := { slots := fun n => if n = 0 then cxSlot else wSlot0,
            size := 64, mask := 0, now := 3, baseHash := cxOldBase, allocated := true } }

/-- An all-empty probe slot whose key is the probe hash of `wEngine`. -/
def wSlotP : TTSlot := { key := 5 ^^^ 17, data := TTData.empty }

/-- An engine with distinct slot keys (mask 0, four slots, 64 bytes) for
the grow witness. -/
def w8Engine : Engine :=
  { boardHash := 5, halfmoveClock := 7, plyNumber := 9, rootPlyNumber := 4,
    tt := { slots := fun n => { key := n, data := TTData.empty }, size := 64, mask := 0,
            now := 3, baseHash := 17, allocated := true } }

/-- Slot data whose priority increases with the index. -/
def w6Data (n : Nat) : TTData :=
  { score := 0, depth := (n : Int), move := 0, date := 0,
    isUpperBound := false, isLowerBound := false,
    isHardBound := false, isWinLossScore := false }

/-- An eight-slot engine (mask 4, 128 bytes) with increasing priorities
for the shrink witness. -/
def w6Engine : Engine :=
  { boardHash := 5, halfmoveClock := 7, plyNumber := 9, rootPlyNumber := 4,
    tt := { slots := fun n => { key := n, data := w6Data n }, size := 128, mask := 4,
            now := 3, baseHash := 17, allocated := true } }

/-! ## Theorems -/

/-! ### Move encoding (claim C9) -/

theorem moveFrom_arith (a f t : Nat) (hf : f < 64) (ht : t < 64) :
    moveFrom (a * 4096 + (f * 64 + t)) = f := by
  simp only [moveFrom, boardBits, Nat.shiftRight_eq_div_pow, Nat.and_pow_two_sub_one_eq_mod]
  omega

theorem moveTo_arith (a f t : Nat) (ht : t < 64) :
    moveTo (a * 4096 + (f * 64 + t)) = t := by
  simp only [moveTo, boardBits, Nat.and_pow_two_sub_one_eq_mod]
  omega

theorem move_arith (f t : Nat) (ht : t < 64) :
    move f t = 0 * 4096 + (f * 64 + t) := by
  have h : (2:Nat) ^ 6 * f + t = 2 ^ 6 * f ||| t := Nat.mul_add_lt_is_or ht f
  simp only [move, boardBits, Nat.shiftLeft_eq]
  rw [show f * 2 ^ 6 = 2 ^ 6 * f from Nat.mul_comm _ _, ← h]
  omega

theorem specialMove_arith (f t : Nat) (hf : f < 64) (ht : t < 64) :
    specialMove f t = 1 * 4096 + (f * 64 + t) := by
  have hlt : f * 64 + t < 2 ^ 12 := by omega
  have h : (2:Nat) ^ 12 * 1 + (f * 64 + t) = 2 ^ 12 * 1 ||| (f * 64 + t) :=
    Nat.mul_add_lt_is_or hlt 1
  rw [specialMove, specialMoveFlag, move_arith f t ht, Nat.shiftLeft_eq]
  simp only [Nat.zero_mul, Nat.zero_add]
  rw [show (1:Nat) * 2 ^ (2 * boardBits) = 2 ^ 12 * 1 by norm_num [boardBits], ← h]
  omega

theorem specialMove_or_arith (f t p : Nat) (hf : f < 64) (ht : t < 64) :
    specialMove f t ||| p <<< 13 = (1 + 2 * p) * 4096 + (f * 64 + t) := by
  have hlt : 1 * 4096 + (f * 64 + t) < 2 ^ 13 := by omega
  have h : (2:Nat) ^ 13 * p + (1 * 4096 + (f * 64 + t))
      = 2 ^ 13 * p ||| (1 * 4096 + (f * 64 + t)) := Nat.mul_add_lt_is_or hlt p
  rw [specialMove_arith f t hf ht, Nat.lor_comm, Nat.shiftLeft_eq,
    show p * 2 ^ 13 = 2 ^ 13 * p from Nat.mul_comm _ _, ← h]
  ring

/-- C9: for square indices `from`, `to` in `[0, 63]`, the `from`/`to`
accessors invert the `move`/`specialMove` constructors, also when any of
the four promotion flag values is or'd in: the special flag occupies bit
12 and the promotion bits occupy bits 13-14, disjoint from the `to` bits
(0-5) and the `from` bits (6-11). -/
theorem move_encoding_roundtrip (f t : Nat) (hf : f < 64) (ht : t < 64) :
    moveFrom (move f t) = f ∧ moveTo (move f t) = t ∧
    moveFrom (specialMove f t) = f ∧ moveTo (specialMove f t) = t ∧
    (∀ p, (p = queenPromotionFlags ∨ p = rookPromotionFlags ∨
           p = bishopPromotionFlags ∨ p = knightPromotionFlags) →
      moveFrom (specialMove f t ||| p) = f ∧ moveTo (specialMove f t ||| p) = t) := by
  refine ⟨?_, ?_, ?_, ?_, ?_⟩
  · rw [move_arith f t ht]; exact moveFrom_arith 0 f t hf ht
  · rw [move_arith f t ht]; exact moveTo_arith 0 f t ht
  · rw [specialMove_arith f t hf ht]; exact moveFrom_arith 1 f t hf ht
  · rw [specialMove_arith f t hf ht]; exact moveTo_arith 1 f t ht
  · intro p hp
    have hq : queenPromotionFlags = 0 <<< 13 := rfl
    have hr : rookPromotionFlags = 1 <<< 13 := rfl
    have hb : bishopPromotionFlags = 2 <<< 13 := rfl
    have hn : knightPromotionFlags = 3 <<< 13 := rfl
    rcases hp with h | h | h | h <;> subst h
    · rw [hq, specialMove_or_arith f t 0 hf ht]
      exact ⟨moveFrom_arith _ f t hf ht, moveTo_arith _ f t ht⟩
    · rw [hr, specialMove_or_arith f t 1 hf ht]
      exact ⟨moveFrom_arith _ f t hf ht, moveTo_arith _ f t ht⟩
    · rw [hb, specialMove_or_arith f t 2 hf ht]
      exact ⟨moveFrom_arith _ f t hf ht, moveTo_arith _ f t ht⟩
    · rw [hn, specialMove_or_arith f t 3 hf ht]
      exact ⟨moveFrom_arith _ f t hf ht, moveTo_arith _ f t ht⟩

/-- Witness for C9 at `from = 12`, `to = 28` (e2-e4). -/
theorem move_encoding_roundtrip_witness :
    12 < 64 ∧ 28 < 64 ∧
    (moveFrom (move 12 28) = 12 ∧ moveTo (move 12 28) = 28 ∧
     moveFrom (specialMove 12 28) = 12 ∧ moveTo (specialMove 12 28) = 28 ∧
     (∀ p, (p = queenPromotionFlags ∨ p = rookPromotionFlags ∨
            p = bishopPromotionFlags ∨ p = knightPromotionFlags) →
       moveFrom (specialMove 12 28 ||| p) = 12 ∧ moveTo (specialMove 12 28 ||| p) = 28)) :=
  ⟨by decide, by decide, move_encoding_roundtrip 12 28 (by decide) (by decide)⟩

/-! ### Slot size (claim C10) -/

/-- C10: the slot layout declared in `Source/Engine.h` (a `uint64_t`
followed by four `short`s) occupies exactly 16 bytes under the standard
C layout algorithm, so the assertion
`sizeof(struct ttSlot) == 2 * sizeof(uint64_t)` at the top of `ttSetSize`
holds, and it agrees with the slot size used by the size arithmetic. -/
theorem ttSlot_sizeof_sixteen :
    ttSlotSizeof = 2 * uint64Bytes ∧ ttSlotSizeof = ttSlotBytes := by
  constructor <;> rfl

/-! ### Preserve-older rule (claim C2) -/

/-- C2: if the slot passed to `ttWrite` is `isHardBound` and the new score
is a weaker bound in the same direction (lower bound and
`score ≤ slot.score`, or upper bound and `score ≥ slot.score`), then
`ttWrite` returns the stored `slot.score` and leaves the whole engine —
in particular every slot of the table — unchanged. -/
theorem ttWrite_preserve_older (C : TTConsts) (pack : TTData → Nat) (E : Engine)
    (slot : TTSlot) (depth score alpha beta : Int)
    (hhard : slot.data.isHardBound = true)
    (hweak : (slot.data.isLowerBound = true ∧ score ≤ slot.data.score) ∨
             (slot.data.isUpperBound = true ∧ slot.data.score ≤ score)) :
    ttWrite C pack E slot depth score alpha beta = (E, slot.data.score) := by
  have hp : preserveOlder slot score = true := by
    rcases hweak with ⟨h1, h2⟩ | ⟨h1, h2⟩ <;>
      simp [preserveOlder, hhard, h1, h2]
  simp [ttWrite, hp]

/-- Witness for C2: a hard lower-bound slot holding score 10 rejects a new
score 5 and returns 10 with the engine untouched. -/
theorem ttWrite_preserve_older_witness :
    wSlotHard.data.isHardBound = true ∧
    (wSlotHard.data.isLowerBound = true ∧ (5:Int) ≤ wSlotHard.data.score) ∧
    ttWrite wConsts wPack wEngine wSlotHard 3 5 0 0 = (wEngine, wSlotHard.data.score) :=
  ⟨by decide, ⟨by decide, by decide⟩,
    ttWrite_preserve_older wConsts wPack wEngine wSlotHard 3 5 0 0 (by decide)
      (Or.inl ⟨by decide, by decide⟩)⟩

theorem selGo_match (mtch : Nat → Bool) (pr : Nat → Int) :
    ∀ (fuel j : Nat) (acc : Int × Int) (k : Nat), k < fuel →
    mtch (j + k) = true → (∀ k' < k, mtch (j + k') = false) →
    (selGo mtch pr fuel j acc).1 = ((j + k : Nat) : Int) := by
  intro fuel
  induction fuel with
  | zero => intro j acc k hk; omega
  | succ n ih =>
    intro j acc k hk hm hpre
    by_cases h0 : mtch j = true
    · have hk0 : k = 0 := by
        by_contra hne
        have h5 := hpre 0 (by omega)
        simp at h5
        exact absurd h0 (by simp [h5])
      subst hk0
      simp [selGo, h0]
    · have hk0 : k ≠ 0 := by
        intro he; subst he; exact h0 (by simpa using hm)
      have hb : mtch j = false := by simpa using h0
      have step : ∀ acc2 : Int × Int, (selGo mtch pr n (j+1) acc2).1 = ((j + k : Nat) : Int) := by
        intro acc2
        have := ih (j+1) acc2 (k-1) (by omega)
          (by rw [show j + 1 + (k-1) = j + k by omega]; exact hm)
          (fun k' hk' => by
            rw [show j + 1 + k' = j + (k'+1) by omega]
            exact hpre (k'+1) (by omega))
        rw [show j + 1 + (k-1) = j + k by omega] at this
        exact this
      by_cases hp : pr j < acc.2
      · simp [selGo, hb, hp, step]
      · simp [selGo, hb, hp, step]

theorem selGo_nomatch (mtch : Nat → Bool) (pr : Nat → Int) :
    ∀ (fuel j : Nat) (i0 p0 : Int),
    (∀ k < fuel, mtch (j + k) = false) →
    (selGo mtch pr fuel j (i0, p0) = (i0, p0) ∧ (∀ k < fuel, p0 ≤ pr (j + k))) ∨
    (∃ k, k < fuel ∧ selGo mtch pr fuel j (i0, p0) = (((j + k : Nat) : Int), pr (j + k)) ∧
       pr (j + k) < p0 ∧ (∀ k' < fuel, pr (j + k) ≤ pr (j + k')) ∧
       (∀ k' < k, pr (j + k) < pr (j + k'))) := by
  intro fuel
  induction fuel with
  | zero => intro j i0 p0 hnm; left; exact ⟨rfl, fun k hk => by omega⟩
  | succ n ih =>
    intro j i0 p0 hnm
    have hb : mtch j = false := by simpa using hnm 0 (by omega)
    have hrest : ∀ k < n, mtch (j + 1 + k) = false := fun k hk => by
      rw [show j + 1 + k = j + (k+1) by omega]; exact hnm (k+1) (by omega)
    by_cases hp : pr j < p0
    · -- improve: recurse with ((j:Int), pr j)
      have hrec := ih (j+1) ((j : Nat) : Int) (pr j) hrest
      rcases hrec with ⟨heq, hall⟩ | ⟨k, hk, heq, hlt, hmin, hfirst⟩
      · right
        refine ⟨0, by omega, ?_, by simpa using hp, ?_, ?_⟩
        · simp only [selGo, hb, if_false, hp, if_true]
          rw [show j + 0 = j from rfl]
          simpa using heq
        · intro k' hk'
          rcases Nat.eq_zero_or_pos k' with h0 | h0
          · subst h0; simp
          · have := hall (k' - 1) (by omega)
            rw [show j + 1 + (k'-1) = j + k' by omega] at this
            simpa using this
        · intro k' hk'; omega
      · right
        refine ⟨k + 1, by omega, ?_, ?_, ?_, ?_⟩
        · simp only [selGo, hb, if_false, hp, if_true]
          rw [show j + 1 + k = j + (k+1) by omega] at heq
          simpa using heq
        · rw [show j + (k+1) = j + 1 + k by omega]
          exact lt_trans hlt hp
        · intro k' hk'
          rcases Nat.eq_zero_or_pos k' with h0 | h0
          · subst h0
            rw [show j + (k+1) = j + 1 + k by omega]
            simpa using le_of_lt hlt
          · have := hmin (k' - 1) (by omega)
            rw [show j + 1 + (k'-1) = j + k' by omega] at this
            rw [show j + (k+1) = j + 1 + k by omega]
            exact this
        · intro k' hk'
          rcases Nat.eq_zero_or_pos k' with h0 | h0
          · subst h0
            rw [show j + (k+1) = j + 1 + k by omega]
            simpa using hlt
          · have := hfirst (k' - 1) (by omega)
            rw [show j + 1 + (k'-1) = j + k' by omega] at this
            rw [show j + (k+1) = j + 1 + k by omega]
            exact this
    · -- keep acc
      have hrec := ih (j+1) i0 p0 hrest
      rcases hrec with ⟨heq, hall⟩ | ⟨k, hk, heq, hlt, hmin, hfirst⟩
      · left
        refine ⟨?_, ?_⟩
        · simp only [selGo, hb, if_false, hp, if_false]
          exact heq
        · intro k hk
          rcases Nat.eq_zero_or_pos k with h0 | h0
          · subst h0; simpa using le_of_not_lt hp
          · have := hall (k - 1) (by omega)
            rw [show j + 1 + (k-1) = j + k by omega] at this
            exact this
      · right
        refine ⟨k + 1, by omega, ?_, ?_, ?_, ?_⟩
        · simp only [selGo, hb, if_false, hp, if_false]
          rw [show j + (k+1) = j + 1 + k by omega]
          exact heq
        · rw [show j + (k+1) = j + 1 + k by omega]; exact hlt
        · intro k' hk'
          rcases Nat.eq_zero_or_pos k' with h0 | h0
          · subst h0
            rw [show j + (k+1) = j + 1 + k by omega]
            have := le_of_not_lt hp
            exact le_trans (le_of_lt hlt) (by simpa using this)
          · have := hmin (k' - 1) (by omega)
            rw [show j + 1 + (k'-1) = j + k' by omega] at this
            rw [show j + (k+1) = j + 1 + k by omega]
            exact this
        · intro k' hk'
          rcases Nat.eq_zero_or_pos k' with h0 | h0
          · subst h0
            rw [show j + (k+1) = j + 1 + k by omega]
            exact lt_of_lt_of_le hlt (by simpa using le_of_not_lt hp)
          · have := hfirst (k' - 1) (by omega)
            rw [show j + 1 + (k'-1) = j + k' by omega] at this
            rw [show j + (k+1) = j + 1 + k by omega]
            exact this

theorem ttSelect_match (C : TTConsts) (pack : TTData → Nat) (T : TTable) (key bucket : Nat)
    (j : Nat) (hj : j < bucketLen)
    (hm : slotMatches pack T key bucket j = true)
    (hpre : ∀ j' < j, slotMatches pack T key bucket j' = false) :
    ttSelect C pack T key bucket = ((j : Nat) : Int) := by
  unfold ttSelect
  have h := selGo_match (slotMatches pack T key bucket) (fun j => prio C T (bucket + j))
    bucketLen 0 (-1, maxInt) j hj (by simpa using hm)
    (fun k' hk' => by simpa using hpre k' hk')
  simpa using h

theorem ttSelect_nomatch (C : TTConsts) (pack : TTData → Nat) (T : TTable) (key bucket : Nat)
    (hnm : ∀ j < bucketLen, slotMatches pack T key bucket j = false)
    (hex : ∃ j, j < bucketLen ∧ prio C T (bucket + j) < maxInt) :
    ∃ i, i < bucketLen ∧ ttSelect C pack T key bucket = ((i : Nat) : Int) ∧
      (∀ j < bucketLen, prio C T (bucket + i) ≤ prio C T (bucket + j)) ∧
      (∀ j < i, prio C T (bucket + i) < prio C T (bucket + j)) := by
  have h := selGo_nomatch (slotMatches pack T key bucket) (fun j => prio C T (bucket + j))
    bucketLen 0 (-1) maxInt (fun k hk => by simpa using hnm k hk)
  rcases h with ⟨heq, hall⟩ | ⟨k, hk, heq, hlt, hmin, hfirst⟩
  · exfalso
    rcases hex with ⟨j, hj, hpr⟩
    have := hall j hj
    simp at this
    omega
  · refine ⟨k, hk, ?_, ?_, ?_⟩
    · unfold ttSelect
      rw [heq]
      simp
    · intro j hj
      have := hmin j hj
      simpa using this
    · intro j hj
      have := hfirst j hj
      simpa using this

theorem readGo_found (pack : TTData → Nat) (T : TTable) (hash bucket : Nat) :
    ∀ (fuel i k : Nat), k < fuel →
    ((T.slots (bucket + (i + k))).key ^^^ pack (T.slots (bucket + (i + k))).data) = hash →
    (∀ k' < k,
      ((T.slots (bucket + (i + k'))).key ^^^ pack (T.slots (bucket + (i + k'))).data) ≠ hash) →
    readGo pack T hash bucket fuel i =
      some { T.slots (bucket + (i + k)) with key := hash } := by
  intro fuel
  induction fuel with
  | zero => intro i k hk; omega
  | succ n ih =>
    intro i k hk hm hpre
    by_cases h0 :
        ((T.slots (bucket + i)).key ^^^ pack (T.slots (bucket + i)).data) = hash
    · have hk0 : k = 0 := by
        by_contra hne
        have h5 := hpre 0 (by omega)
        simp at h5
        exact h5 h0
      subst hk0
      simp only [readGo, Nat.add_zero]
      rw [if_pos (by simpa using h0)]
      rw [h0]
    · have hk0 : k ≠ 0 := by
        intro he; subst he; exact h0 (by simpa using hm)
      have := ih (i+1) (k-1) (by omega)
        (by rw [show i + 1 + (k-1) = i + k by omega]; exact hm)
        (fun k' hk' => by
          rw [show i + 1 + k' = i + (k'+1) by omega]
          exact hpre (k'+1) (by omega))
      rw [show i + 1 + (k-1) = i + k by omega] at this
      simp only [readGo]
      rw [if_neg (by simpa using h0)]
      exact this

theorem readGo_none (pack : TTData → Nat) (T : TTable) (hash bucket : Nat) :
    ∀ (fuel i : Nat),
    (∀ k < fuel,
      ((T.slots (bucket + (i + k))).key ^^^ pack (T.slots (bucket + (i + k))).data) ≠ hash) →
    readGo pack T hash bucket fuel i = none := by
  intro fuel
  induction fuel with
  | zero => intro i hnm; rfl
  | succ n ih =>
    intro i hnm
    have h0 := hnm 0 (by omega)
    simp at h0
    simp only [readGo]
    rw [if_neg (by simpa using h0)]
    exact ih (i+1) (fun k hk => by
      rw [show i + 1 + k = i + (k+1) by omega]
      exact hnm (k+1) (by omega))

/-- C4: for every bucket state (priorities in the `int` range, as the
`depth`/`date` bitfield widths guarantee; cf. `assert(i >= 0)`), a
non-early-returning `ttWrite` stores into the first slot of the bucket
(scanning in-bucket indices `0..bucketLen-1`) whose `key ^ data` equals
the probe hash `slot.key` when such a slot exists, and otherwise into the
slot with the minimum `prio`, where `prio = (-age << ttDepthBits) + depth`
and `age = (now - date) mod 2^ttDateBits`, ties broken by the lowest
index; the value written has `key = probe hash ^ data`. -/
theorem ttWrite_slot_selection (C : TTConsts) (pack : TTData → Nat) (E : Engine)
    (slot : TTSlot) (depth score alpha beta : Int)
    (hpres : preserveOlder slot score = false)
    (hHi : refuseHi C E score = false) (hLo : refuseLo C E score = false) :
    ((∃ j, j < bucketLen ∧
        slotMatches pack E.tt slot.key (slot.key &&& E.tt.mask) j = true) →
      ∃ j, j < bucketLen ∧
        slotMatches pack E.tt slot.key (slot.key &&& E.tt.mask) j = true ∧
        (∀ j' < j, slotMatches pack E.tt slot.key (slot.key &&& E.tt.mask) j' = false) ∧
        (ttWrite C pack E slot depth score alpha beta).1.tt.slots =
          fun n => if n = (slot.key &&& E.tt.mask) + j
            then { key := slot.key ^^^ pack (writeData C E slot depth score alpha beta),
                   data := writeData C E slot depth score alpha beta }
            else E.tt.slots n) ∧
    ((∀ j < bucketLen,
        slotMatches pack E.tt slot.key (slot.key &&& E.tt.mask) j = false) →
      (∃ j, j < bucketLen ∧ prio C E.tt ((slot.key &&& E.tt.mask) + j) < maxInt) →
      ∃ i, i < bucketLen ∧
        (∀ j < bucketLen, prio C E.tt ((slot.key &&& E.tt.mask) + i) ≤
          prio C E.tt ((slot.key &&& E.tt.mask) + j)) ∧
        (∀ j < i, prio C E.tt ((slot.key &&& E.tt.mask) + i) <
          prio C E.tt ((slot.key &&& E.tt.mask) + j)) ∧
        (ttWrite C pack E slot depth score alpha beta).1.tt.slots =
          fun n => if n = (slot.key &&& E.tt.mask) + i
            then { key := slot.key ^^^ pack (writeData C E slot depth score alpha beta),
                   data := writeData C E slot depth score alpha beta }
            else E.tt.slots n) := by
  constructor
  · intro hex
    have hfind : ∃ j, slotMatches pack E.tt slot.key (slot.key &&& E.tt.mask) j = true := by
      rcases hex with ⟨j, _, hj⟩; exact ⟨j, hj⟩
    set j0 := Nat.find hfind with hj0
    have hm : slotMatches pack E.tt slot.key (slot.key &&& E.tt.mask) j0 = true :=
      Nat.find_spec hfind
    have hlt : j0 < bucketLen := by
      rcases hex with ⟨j, hjlt, hj⟩
      exact lt_of_le_of_lt (Nat.find_min' hfind hj) hjlt
    have hpre : ∀ j' < j0, slotMatches pack E.tt slot.key (slot.key &&& E.tt.mask) j' = false := by
      intro j' hj'
      have := Nat.find_min hfind hj'
      simpa using this
    have hsel := ttSelect_match C pack E.tt slot.key (slot.key &&& E.tt.mask) j0 hlt hm hpre
    refine ⟨j0, hlt, hm, hpre, ?_⟩
    have htn : (((slot.key &&& E.tt.mask : Nat) : Int) + ((j0 : Nat) : Int)).toNat
        = (slot.key &&& E.tt.mask) + j0 := by omega
    simp only [ttWrite, hpres, hHi, hLo, Bool.false_eq_true, if_false, Bool.or_self]
    simp only [hsel, htn]
  · intro hnm hex
    rcases ttSelect_nomatch C pack E.tt slot.key (slot.key &&& E.tt.mask) hnm
      (by rcases hex with ⟨j, hj, hp⟩; exact ⟨j, hj, hp⟩) with ⟨i, hi, hsel, hmin, hfirst⟩
    refine ⟨i, hi, hmin, hfirst, ?_⟩
    have htn : (((slot.key &&& E.tt.mask : Nat) : Int) + ((i : Nat) : Int)).toNat
        = (slot.key &&& E.tt.mask) + i := by omega
    simp only [ttWrite, hpres, hHi, hLo, Bool.false_eq_true, if_false, Bool.or_self]
    simp only [hsel, htn]

theorem writeData_isUpperBound (C : TTConsts) (E : Engine) (slot : TTSlot)
    (depth score alpha beta : Int) :
    (writeData C E slot depth score alpha beta).isUpperBound = decide (score ≤ alpha) := by
  simp only [writeData, rebaseLo, rebaseHi, setFields]
  split_ifs <;> rfl

theorem writeData_isLowerBound (C : TTConsts) (E : Engine) (slot : TTSlot)
    (depth score alpha beta : Int) :
    (writeData C E slot depth score alpha beta).isLowerBound = decide (beta ≤ score) := by
  simp only [writeData, rebaseLo, rebaseHi, setFields]
  split_ifs <;> rfl

theorem writeData_depth (C : TTConsts) (E : Engine) (slot : TTSlot)
    (depth score alpha beta : Int) :
    (writeData C E slot depth score alpha beta).depth = depth := by
  simp only [writeData, rebaseLo, rebaseHi, setFields]
  split_ifs <;> rfl

theorem ttSelect_writable (C : TTConsts) (pack : TTData → Nat) (T : TTable) (key bucket : Nat)
    (hprio : ∃ j, j < bucketLen ∧ prio C T (bucket + j) < maxInt) :
    ∃ i, i < bucketLen ∧ ttSelect C pack T key bucket = ((i : Nat) : Int) ∧
      ∀ j' < i, slotMatches pack T key bucket j' = false := by
  by_cases hex : ∃ j, slotMatches pack T key bucket j = true ∧ j < bucketLen
  · have hfind : ∃ j, slotMatches pack T key bucket j = true := by
      rcases hex with ⟨j, hj, _⟩; exact ⟨j, hj⟩
    have hm := Nat.find_spec hfind
    have hlt : Nat.find hfind < bucketLen := by
      rcases hex with ⟨j, hj, hjlt⟩
      exact lt_of_le_of_lt (Nat.find_min' hfind hj) hjlt
    have hpre : ∀ j' < Nat.find hfind, slotMatches pack T key bucket j' = false := by
      intro j' hj'
      have := Nat.find_min hfind hj'
      simpa using this
    exact ⟨Nat.find hfind, hlt,
      ttSelect_match C pack T key bucket (Nat.find hfind) hlt hm hpre, hpre⟩
  · push_neg at hex
    have hnm : ∀ j < bucketLen, slotMatches pack T key bucket j = false := by
      intro j hj
      rcases Bool.eq_false_or_eq_true (slotMatches pack T key bucket j) with h | h
      · exact absurd hj (by simpa using hex j h)
      · exact h
    rcases ttSelect_nomatch C pack T key bucket hnm hprio with ⟨i, hi, hsel, _, hfirst⟩
    exact ⟨i, hi, hsel, fun j' hj' => hnm j' (lt_trans hj' hi)⟩

theorem ttWrite_store_state (C : TTConsts) (pack : TTData → Nat) (E : Engine)
    (slot : TTSlot) (depth score alpha beta : Int)
    (hpres : preserveOlder slot score = false)
    (hHi : refuseHi C E score = false) (hLo : refuseLo C E score = false) :
    ttWrite C pack E slot depth score alpha beta =
      ({ E with tt := { E.tt with slots :=
                  fun n =>
                    if n = (((slot.key &&& E.tt.mask : Nat) : Int) +
                        ttSelect C pack E.tt slot.key (slot.key &&& E.tt.mask)).toNat
                    then { key := slot.key ^^^ pack (writeData C E slot depth score alpha beta),
                           data := writeData C E slot depth score alpha beta }
                    else E.tt.slots n } }, score) := by
  simp [ttWrite, hpres, hHi, hLo]

/-- C1: after a `ttWrite` whose `slot.key` is the probe hash
(board hash ^ baseHash) and which neither hits the preserve-older rule
nor refuses a DTZ store, a subsequent `ttRead` with the same board hash
and baseHash returns a slot whose XOR-verified key equals the probe hash,
whose `isUpperBound` flag equals `score ≤ alpha` and `isLowerBound` flag
equals `score ≥ beta`, whose `depth` is the written depth, and whose
score, when `isWinLossScore` is set, is the stored score rebased by
`-rootDistance` if non-negative and `+rootDistance` if negative, where
`rootDistance = plyNumber - rootPlyNumber`. -/
theorem ttWrite_ttRead_roundtrip (C : TTConsts) (pack : TTData → Nat) (E : Engine)
    (slot : TTSlot) (depth score alpha beta : Int)
    (hkey : slot.key = E.boardHash ^^^ E.tt.baseHash)
    (hpres : preserveOlder slot score = false)
    (hHi : refuseHi C E score = false) (hLo : refuseLo C E score = false)
    (hprio : ∃ j, j < bucketLen ∧
      prio C E.tt ((slot.key &&& E.tt.mask) + j) < maxInt) :
    (ttRead pack (ttWrite C pack E slot depth score alpha beta).1).key = slot.key ∧
    (ttRead pack (ttWrite C pack E slot depth score alpha beta).1).data.isUpperBound
      = decide (score ≤ alpha) ∧
    (ttRead pack (ttWrite C pack E slot depth score alpha beta).1).data.isLowerBound
      = decide (beta ≤ score) ∧
    (ttRead pack (ttWrite C pack E slot depth score alpha beta).1).data.depth = depth ∧
    ((ttRead pack (ttWrite C pack E slot depth score alpha beta).1).data.isWinLossScore = true →
      (ttRead pack (ttWrite C pack E slot depth score alpha beta).1).data.score
        = (writeData C E slot depth score alpha beta).score +
          (if 0 ≤ (writeData C E slot depth score alpha beta).score
           then -(E.plyNumber - E.rootPlyNumber) else E.plyNumber - E.rootPlyNumber)) := by
  rcases ttSelect_writable C pack E.tt slot.key (slot.key &&& E.tt.mask) hprio with
    ⟨i, hi, hsel, hpre2⟩
  have htn : (((slot.key &&& E.tt.mask : Nat) : Int) + ((i : Nat) : Int)).toNat
      = (slot.key &&& E.tt.mask) + i := by omega
  set d := writeData C E slot depth score alpha beta with hd
  set w : TTSlot := { key := slot.key ^^^ pack d, data := d } with hw
  have hTslots : (ttWrite C pack E slot depth score alpha beta).1.tt.slots =
      fun n => if n = (slot.key &&& E.tt.mask) + i then w else E.tt.slots n := by
    simp only [ttWrite, hpres, hHi, hLo, Bool.false_eq_true, if_false, Bool.or_self]
    simp only [hsel, htn]
  have hTmask : (ttWrite C pack E slot depth score alpha beta).1.tt.mask = E.tt.mask := by
    simp only [ttWrite, hpres, hHi, hLo, Bool.false_eq_true, if_false, Bool.or_self]
  have hTbase : (ttWrite C pack E slot depth score alpha beta).1.tt.baseHash
      = E.tt.baseHash := by
    simp only [ttWrite, hpres, hHi, hLo, Bool.false_eq_true, if_false, Bool.or_self]
  have hBoard : (ttWrite C pack E slot depth score alpha beta).1.boardHash = E.boardHash := by
    simp only [ttWrite, hpres, hHi, hLo, Bool.false_eq_true, if_false, Bool.or_self]
  have hPly : (ttWrite C pack E slot depth score alpha beta).1.plyNumber = E.plyNumber := by
    simp only [ttWrite, hpres, hHi, hLo, Bool.false_eq_true, if_false, Bool.or_self]
  have hRoot : (ttWrite C pack E slot depth score alpha beta).1.rootPlyNumber
      = E.rootPlyNumber := by
    simp only [ttWrite, hpres, hHi, hLo, Bool.false_eq_true, if_false, Bool.or_self]
  have hfound : readGo pack (ttWrite C pack E slot depth score alpha beta).1.tt
      slot.key (slot.key &&& E.tt.mask) bucketLen 0 = some { w with key := slot.key } := by
    have hver : ((ttWrite C pack E slot depth score alpha beta).1.tt.slots
        ((slot.key &&& E.tt.mask) + (0 + i))).key ^^^
        pack ((ttWrite C pack E slot depth score alpha beta).1.tt.slots
        ((slot.key &&& E.tt.mask) + (0 + i))).data = slot.key := by
      rw [hTslots]
      simp only [Nat.zero_add, if_pos rfl]
      rw [hw]
      simp [Nat.xor_assoc]
    have hprev : ∀ k' < i, ((ttWrite C pack E slot depth score alpha beta).1.tt.slots
        ((slot.key &&& E.tt.mask) + (0 + k'))).key ^^^
        pack ((ttWrite C pack E slot depth score alpha beta).1.tt.slots
        ((slot.key &&& E.tt.mask) + (0 + k'))).data ≠ slot.key := by
      intro k' hk'
      rw [hTslots]
      simp only [Nat.zero_add]
      rw [if_neg (by omega)]
      have h6 := hpre2 k' hk'
      simp only [slotMatches] at h6
      simpa using h6
    have h := readGo_found pack (ttWrite C pack E slot depth score alpha beta).1.tt
      slot.key (slot.key &&& E.tt.mask) bucketLen 0 i hi hver hprev
    rw [h]
    simp only [Nat.zero_add]
    rw [hTslots]
    simp [hw]
  have hread : ttRead pack (ttWrite C pack E slot depth score alpha beta).1 =
      (if d.isWinLossScore then
        { key := slot.key, data := { d with
            score := d.score + (if 0 ≤ d.score
              then -(E.plyNumber - E.rootPlyNumber) else E.plyNumber - E.rootPlyNumber) } }
       else { key := slot.key, data := d }) := by
    rw [ttRead]
    rw [hBoard, hTbase, hTmask, ← hkey, hfound]
    rw [hPly, hRoot]
  rcases Bool.eq_false_or_eq_true d.isWinLossScore with hwl | hwl
  · rw [hread, if_pos hwl]
    refine ⟨rfl, ?_, ?_, ?_, ?_⟩
    · exact writeData_isUpperBound C E slot depth score alpha beta
    · exact writeData_isLowerBound C E slot depth score alpha beta
    · exact writeData_depth C E slot depth score alpha beta
    · intro _; rfl
  · rw [hread, if_neg (by simp [hwl])]
    refine ⟨rfl, ?_, ?_, ?_, ?_⟩
    · exact writeData_isUpperBound C E slot depth score alpha beta
    · exact writeData_isLowerBound C E slot depth score alpha beta
    · exact writeData_depth C E slot depth score alpha beta
    · intro hc; exact absurd hc (by simp [hwl])

/-- C3: in `ttWrite` with `score > maxEval` (and sane constants
`minEval ≤ maxEval`): if additionally `score > maxEval + 1`, the board's
`halfmoveClock` is 0 and `score ≤ maxDtz`, `ttWrite` returns `score`
without modifying the engine; otherwise, when `score > maxEval + 1` the
stored score is `score + ply` and `isWinLossScore` is set; and in every
`score > maxEval` case the stored `isHardBound` equals the computed
`isLowerBound` (`score ≥ beta`).  The symmetric rule holds for
`score < minEval` with `score - ply`, the
`halfmoveClock == 0` / `score ≥ minDtz` refusal, and
`isHardBound := isUpperBound`.  The final conjunct ties the stored data
word to the slot actually written into the table. -/
theorem ttWrite_mate_dtz (C : TTConsts) (pack : TTData → Nat) (E : Engine)
    (slot : TTSlot) (depth score alpha beta : Int)
    (hsane : C.minEval ≤ C.maxEval)
    (hpres : preserveOlder slot score = false) :
    (C.maxEval + 1 < score → E.halfmoveClock = 0 → score ≤ C.maxDtz →
      ttWrite C pack E slot depth score alpha beta = (E, score)) ∧
    (C.maxEval + 1 < score → refuseHi C E score = false →
      (writeData C E slot depth score alpha beta).score = score + ply E ∧
      (writeData C E slot depth score alpha beta).isWinLossScore = true) ∧
    (C.maxEval < score →
      (writeData C E slot depth score alpha beta).isHardBound = decide (beta ≤ score)) ∧
    (score < C.minEval - 1 → E.halfmoveClock = 0 → C.minDtz ≤ score →
      ttWrite C pack E slot depth score alpha beta = (E, score)) ∧
    (score < C.minEval - 1 → refuseLo C E score = false →
      (writeData C E slot depth score alpha beta).score = score - ply E ∧
      (writeData C E slot depth score alpha beta).isWinLossScore = true) ∧
    (score < C.minEval →
      (writeData C E slot depth score alpha beta).isHardBound = decide (score ≤ alpha)) ∧
    (refuseHi C E score = false → refuseLo C E score = false →
      (∃ j, j < bucketLen ∧ prio C E.tt ((slot.key &&& E.tt.mask) + j) < maxInt) →
      ∃ i, i < bucketLen ∧
        (ttWrite C pack E slot depth score alpha beta).1.tt.slots
            ((slot.key &&& E.tt.mask) + i) =
          { key := slot.key ^^^ pack (writeData C E slot depth score alpha beta),
            data := writeData C E slot depth score alpha beta }) := by
  refine ⟨?_, ?_, ?_, ?_, ?_, ?_, ?_⟩
  · intro h1 h2 h3
    have hr : refuseHi C E score = true := by
      simp [refuseHi, h1, h2, h3]
    simp [ttWrite, hpres, hr]
  · intro h1 hr
    have hnotlow : ¬ (score < C.minEval) := by omega
    have hnotlow1 : ¬ (score < C.minEval - 1) := by omega
    simp only [writeData, rebaseLo, rebaseHi, setFields]
    rw [if_pos (show C.maxEval < score by omega), if_pos h1, if_neg hnotlow]
    exact ⟨rfl, rfl⟩
  · intro h1
    have hnotlow : ¬ (score < C.minEval) := by omega
    have hnotlow1 : ¬ (score < C.minEval - 1) := by omega
    simp only [writeData, rebaseLo, rebaseHi, setFields]
    rw [if_pos h1, if_neg hnotlow]
    by_cases h2 : C.maxEval + 1 < score
    · rw [if_pos h2]
    · rw [if_neg h2]
  · intro h1 h2 h3
    have hr : refuseLo C E score = true := by
      simp [refuseLo, h1, h2, h3]
    simp [ttWrite, hpres, hr]
  · intro h1 hr
    have hnothigh : ¬ (C.maxEval < score) := by omega
    simp only [writeData, rebaseLo, rebaseHi, setFields]
    rw [if_neg hnothigh, if_pos (show score < C.minEval by omega), if_pos h1]
    exact ⟨rfl, rfl⟩
  · intro h1
    have hnothigh : ¬ (C.maxEval < score) := by omega
    simp only [writeData, rebaseLo, rebaseHi, setFields]
    rw [if_neg hnothigh, if_pos h1]
    by_cases h2 : score < C.minEval - 1
    · rw [if_pos h2]
    · rw [if_neg h2]
  · intro hHi hLo hprio
    rcases ttSelect_writable C pack E.tt slot.key (slot.key &&& E.tt.mask) hprio with
      ⟨i, hi, hsel, _⟩
    have htn : (((slot.key &&& E.tt.mask : Nat) : Int) + ((i : Nat) : Int)).toNat
        = (slot.key &&& E.tt.mask) + i := by omega
    refine ⟨i, hi, ?_⟩
    simp only [ttWrite, hpres, hHi, hLo, Bool.false_eq_true, if_false, Bool.or_self]
    simp only [hsel, htn]
    simp

theorem ttRead_miss (pack : TTData → Nat) (E : Engine)
    (hnm : ∀ j < bucketLen,
      ((E.tt.slots (((E.boardHash ^^^ E.tt.baseHash) &&& E.tt.mask) + j)).key ^^^
        pack (E.tt.slots (((E.boardHash ^^^ E.tt.baseHash) &&& E.tt.mask) + j)).data)
        ≠ E.boardHash ^^^ E.tt.baseHash) :
    ttRead pack E = { key := E.boardHash ^^^ E.tt.baseHash, data := TTData.empty } := by
  rw [ttRead]
  rw [readGo_none pack E.tt (E.boardHash ^^^ E.tt.baseHash)
    ((E.boardHash ^^^ E.tt.baseHash) &&& E.tt.mask) bucketLen 0
    (fun k hk => by simpa using hnm k hk)]

/-- C5 (amended): after `ttClearFast`, a `ttRead` returns the empty slot
whose `key` is the new probe hash (board hash ^ new baseHash) and whose
`data` is 0, provided no slot of the probed bucket XOR-verifies to the
new probe hash.  The unconditional claim is false: `baseHash = 2^64 - 1`
is a fixed point of `~xorshift64star(~baseHash)` (see the
counterexample), and stored XOR-verified keys can collide with the new
probe hash. -/
theorem ttRead_after_clearFast (pack : TTData → Nat) (E : Engine)
    (hnm : ∀ j < bucketLen,
      ((E.tt.slots (((E.boardHash ^^^ compl64 (xorshift64star (compl64 E.tt.baseHash))) &&&
          E.tt.mask) + j)).key ^^^
        pack (E.tt.slots (((E.boardHash ^^^ compl64 (xorshift64star (compl64 E.tt.baseHash))) &&&
          E.tt.mask) + j)).data)
        ≠ E.boardHash ^^^ compl64 (xorshift64star (compl64 E.tt.baseHash))) :
    ttRead pack (ttClearFast E) =
      { key := E.boardHash ^^^ compl64 (xorshift64star (compl64 E.tt.baseHash)),
        data := TTData.empty } := by
  exact ttRead_miss pack (ttClearFast E) (fun j hj => hnm j hj)

/-- C5 counterexample: with `baseHash = 2^64 - 1`, `ttClearFast` leaves
`baseHash` unchanged (`~(2^64-1) = 0` and `xorshift64star 0 = 0`), so a
`ttRead` for the previously written board hash 5 still returns the stored
slot — not the empty slot with zero data that the claim promises. -/
theorem ttClearFast_counterexample :
    (ttRead wPack (ttClearFast cxEngine)) = { key := 5 ^^^ cxOldBase, data := cxData } ∧
    cxData ≠ TTData.empty := ⟨by decide, by decide⟩

/-- Witness for C4 on a concrete engine: both selection branches
instantiated at score 50. -/
theorem ttWrite_slot_selection_witness :
    preserveOlder wSlotP 50 = false ∧
    refuseHi wConsts wEngine 50 = false ∧ refuseLo wConsts wEngine 50 = false ∧
    (((∃ j, j < bucketLen ∧
        slotMatches wPack wEngine.tt wSlotP.key (wSlotP.key &&& wEngine.tt.mask) j = true) →
      ∃ j, j < bucketLen ∧
        slotMatches wPack wEngine.tt wSlotP.key (wSlotP.key &&& wEngine.tt.mask) j = true ∧
        (∀ j' < j, slotMatches wPack wEngine.tt wSlotP.key (wSlotP.key &&& wEngine.tt.mask) j'
          = false) ∧
        (ttWrite wConsts wPack wEngine wSlotP 3 50 20 60).1.tt.slots =
          fun n => if n = (wSlotP.key &&& wEngine.tt.mask) + j
            then { key := wSlotP.key ^^^ wPack (writeData wConsts wEngine wSlotP 3 50 20 60),
                   data := writeData wConsts wEngine wSlotP 3 50 20 60 }
            else wEngine.tt.slots n) ∧
    ((∀ j < bucketLen,
        slotMatches wPack wEngine.tt wSlotP.key (wSlotP.key &&& wEngine.tt.mask) j = false) →
      (∃ j, j < bucketLen ∧
        prio wConsts wEngine.tt ((wSlotP.key &&& wEngine.tt.mask) + j) < maxInt) →
      ∃ i, i < bucketLen ∧
        (∀ j < bucketLen, prio wConsts wEngine.tt ((wSlotP.key &&& wEngine.tt.mask) + i) ≤
          prio wConsts wEngine.tt ((wSlotP.key &&& wEngine.tt.mask) + j)) ∧
        (∀ j < i, prio wConsts wEngine.tt ((wSlotP.key &&& wEngine.tt.mask) + i) <
          prio wConsts wEngine.tt ((wSlotP.key &&& wEngine.tt.mask) + j)) ∧
        (ttWrite wConsts wPack wEngine wSlotP 3 50 20 60).1.tt.slots =
          fun n => if n = (wSlotP.key &&& wEngine.tt.mask) + i
            then { key := wSlotP.key ^^^ wPack (writeData wConsts wEngine wSlotP 3 50 20 60),
                   data := writeData wConsts wEngine wSlotP 3 50 20 60 }
            else wEngine.tt.slots n)) :=
  ⟨by decide, by decide, by decide,
    ttWrite_slot_selection wConsts wPack wEngine wSlotP 3 50 20 60
      (by decide) (by decide) (by decide)⟩

/-- Witness for C1: write score 50 at depth 3 and read it back. -/
theorem ttWrite_ttRead_roundtrip_witness :
    wSlotP.key = wEngine.boardHash ^^^ wEngine.tt.baseHash ∧
    preserveOlder wSlotP 50 = false ∧
    refuseHi wConsts wEngine 50 = false ∧ refuseLo wConsts wEngine 50 = false ∧
    (∃ j, j < bucketLen ∧
      prio wConsts wEngine.tt ((wSlotP.key &&& wEngine.tt.mask) + j) < maxInt) ∧
    ((ttRead wPack (ttWrite wConsts wPack wEngine wSlotP 3 50 20 60).1).key = wSlotP.key ∧
    (ttRead wPack (ttWrite wConsts wPack wEngine wSlotP 3 50 20 60).1).data.isUpperBound
      = decide ((50:Int) ≤ 20) ∧
    (ttRead wPack (ttWrite wConsts wPack wEngine wSlotP 3 50 20 60).1).data.isLowerBound
      = decide ((60:Int) ≤ 50) ∧
    (ttRead wPack (ttWrite wConsts wPack wEngine wSlotP 3 50 20 60).1).data.depth = 3 ∧
    ((ttRead wPack (ttWrite wConsts wPack wEngine wSlotP 3 50 20 60).1).data.isWinLossScore
        = true →
      (ttRead wPack (ttWrite wConsts wPack wEngine wSlotP 3 50 20 60).1).data.score
        = (writeData wConsts wEngine wSlotP 3 50 20 60).score +
          (if 0 ≤ (writeData wConsts wEngine wSlotP 3 50 20 60).score
           then -(wEngine.plyNumber - wEngine.rootPlyNumber)
           else wEngine.plyNumber - wEngine.rootPlyNumber))) :=
  ⟨by decide, by decide, by decide, by decide, ⟨0, by decide, by decide⟩,
    ttWrite_ttRead_roundtrip wConsts wPack wEngine wSlotP 3 50 20 60
      (by decide) (by decide) (by decide) (by decide) ⟨0, by decide, by decide⟩⟩

/-- Witness for C3 at the mate-like score 150 (`maxEval = 100`,
`halfmoveClock = 7`). -/
theorem ttWrite_mate_dtz_witness :
    wConsts.minEval ≤ wConsts.maxEval ∧
    preserveOlder wSlotP 150 = false ∧
    ((wConsts.maxEval + 1 < 150 → wEngine.halfmoveClock = 0 → (150:Int) ≤ wConsts.maxDtz →
      ttWrite wConsts wPack wEngine wSlotP 3 150 20 60 = (wEngine, 150)) ∧
    (wConsts.maxEval + 1 < 150 → refuseHi wConsts wEngine 150 = false →
      (writeData wConsts wEngine wSlotP 3 150 20 60).score = 150 + ply wEngine ∧
      (writeData wConsts wEngine wSlotP 3 150 20 60).isWinLossScore = true) ∧
    (wConsts.maxEval < 150 →
      (writeData wConsts wEngine wSlotP 3 150 20 60).isHardBound = decide ((60:Int) ≤ 150)) ∧
    ((150:Int) < wConsts.minEval - 1 → wEngine.halfmoveClock = 0 → wConsts.minDtz ≤ 150 →
      ttWrite wConsts wPack wEngine wSlotP 3 150 20 60 = (wEngine, 150)) ∧
    ((150:Int) < wConsts.minEval - 1 → refuseLo wConsts wEngine 150 = false →
      (writeData wConsts wEngine wSlotP 3 150 20 60).score = 150 - ply wEngine ∧
      (writeData wConsts wEngine wSlotP 3 150 20 60).isWinLossScore = true) ∧
    ((150:Int) < wConsts.minEval →
      (writeData wConsts wEngine wSlotP 3 150 20 60).isHardBound = decide ((150:Int) ≤ 20)) ∧
    (refuseHi wConsts wEngine 150 = false → refuseLo wConsts wEngine 150 = false →
      (∃ j, j < bucketLen ∧
        prio wConsts wEngine.tt ((wSlotP.key &&& wEngine.tt.mask) + j) < maxInt) →
      ∃ i, i < bucketLen ∧
        (ttWrite wConsts wPack wEngine wSlotP 3 150 20 60).1.tt.slots
            ((wSlotP.key &&& wEngine.tt.mask) + i) =
          { key := wSlotP.key ^^^ wPack (writeData wConsts wEngine wSlotP 3 150 20 60),
            data := writeData wConsts wEngine wSlotP 3 150 20 60 })) :=
  ⟨by decide, by decide,
    ttWrite_mate_dtz wConsts wPack wEngine wSlotP 3 150 20 60 (by decide) (by decide)⟩

/-- Witness for the amended C5: on an engine whose bucket holds no slot
verifying against the new probe hash, `ttRead` after `ttClearFast`
returns the empty probe slot. -/
theorem ttRead_after_clearFast_witness :
    (∀ j < bucketLen,
      ((wEngine.tt.slots (((wEngine.boardHash ^^^
          compl64 (xorshift64star (compl64 wEngine.tt.baseHash))) &&&
          wEngine.tt.mask) + j)).key ^^^
        wPack (wEngine.tt.slots (((wEngine.boardHash ^^^
          compl64 (xorshift64star (compl64 wEngine.tt.baseHash))) &&&
          wEngine.tt.mask) + j)).data)
        ≠ wEngine.boardHash ^^^ compl64 (xorshift64star (compl64 wEngine.tt.baseHash))) ∧
    ttRead wPack (ttClearFast wEngine) =
      { key := wEngine.boardHash ^^^ compl64 (xorshift64star (compl64 wEngine.tt.baseHash)),
        data := TTData.empty } :=
  ⟨by decide, ttRead_after_clearFast wPack wEngine (by decide)⟩

theorem sizeLoop_spec :
    ∀ (fuel size ns mask : Nat), size - ns ≤ fuel → 0 < ns →
    ∃ j, (sizeLoop fuel size ns mask).1 = ns * 2 ^ j ∧
      (sizeLoop fuel size ns mask).2 = mask * 2 ^ j + bucketLen * (2 ^ j - 1) ∧
      ¬ ((sizeLoop fuel size ns mask).1 + (sizeLoop fuel size ns mask).1 ≤ size) ∧
      (ns ≤ size → (sizeLoop fuel size ns mask).1 ≤ size) := by
  intro fuel
  induction fuel with
  | zero =>
    intro size ns mask hfuel hns
    refine ⟨0, by simp [sizeLoop], by simp [sizeLoop, bucketLen], ?_, ?_⟩
    · simp only [sizeLoop]
      omega
    · simp only [sizeLoop]
      omega
  | succ n ih =>
    intro size ns mask hfuel hns
    by_cases hc : ns + ns ≤ size
    · have hrec := ih size (ns + ns) ((mask <<< 1) + bucketLen) (by omega) (by omega)
      rcases hrec with ⟨j, h1, h2, h3, h4⟩
      refine ⟨j + 1, ?_, ?_, ?_, ?_⟩
      · simp only [sizeLoop, if_pos hc]
        rw [h1]
        ring
      · simp only [sizeLoop, if_pos hc]
        rw [h2, Nat.shiftLeft_eq]
        obtain ⟨s, hs⟩ : ∃ s, 2 ^ j = s + 1 :=
          ⟨2 ^ j - 1, by have h9 : 1 ≤ 2 ^ j := Nat.one_le_two_pow; omega⟩
        have hps : (2:Nat) ^ (j + 1) = (s + 1) * 2 := by rw [pow_succ, hs]
        rw [hps, hs]
        simp only [bucketLen, Nat.add_sub_cancel, pow_one]
        have h2s : (s + 1) * 2 - 1 = 2 * s + 1 := by omega
        rw [h2s]
        ring
      · simp only [sizeLoop, if_pos hc]
        exact h3
      · intro _
        simp only [sizeLoop, if_pos hc]
        exact h4 hc
    · refine ⟨0, ?_, ?_, ?_, ?_⟩
      · simp [sizeLoop, if_neg hc]
      · simp [sizeLoop, if_neg hc, bucketLen]
      · simp only [sizeLoop, if_neg hc]
        omega
      · intro hle
        simp only [sizeLoop, if_neg hc]
        omega

/-- C7: after a `ttSetSize` (reallocation modelled as succeeding at the
first requested size), the table's byte size equals
`bucketLen * sizeof(ttSlot) * 2^k` for the largest `k` such that this does
not exceed `max(requested bytes, bucketLen * sizeof(ttSlot))` — the
largest power-of-two bucketed size not exceeding the request, never
smaller than one bucket — and the new mask satisfies
`size = (mask + bucketLen) * sizeof(ttSlot)`. -/
theorem ttSetSize_size_mask (C : TTConsts) (E : Engine) (reqSize : Nat) :
    ∃ k, (ttSetSize C E reqSize).tt.size = bucketLen * ttSlotBytes * 2 ^ k ∧
      bucketLen * ttSlotBytes * 2 ^ k ≤ max reqSize (bucketLen * ttSlotBytes) ∧
      (∀ k', bucketLen * ttSlotBytes * 2 ^ k' ≤ max reqSize (bucketLen * ttSlotBytes) →
        k' ≤ k) ∧
      (ttSetSize C E reqSize).tt.size =
        ((ttSetSize C E reqSize).tt.mask + bucketLen) * ttSlotBytes := by
  have hsize : (ttSetSize C E reqSize).tt.size =
      (sizeLoop (max reqSize (bucketLen * ttSlotBytes)) (max reqSize (bucketLen * ttSlotBytes))
        (bucketLen * ttSlotBytes) 0).1 := by
    simp [ttSetSize]
  have hmask : (ttSetSize C E reqSize).tt.mask =
      (sizeLoop (max reqSize (bucketLen * ttSlotBytes)) (max reqSize (bucketLen * ttSlotBytes))
        (bucketLen * ttSlotBytes) 0).2 := by
    simp [ttSetSize]
  set M := max reqSize (bucketLen * ttSlotBytes) with hM
  have hbase : 0 < bucketLen * ttSlotBytes := by norm_num [bucketLen, ttSlotBytes]
  have hMb : bucketLen * ttSlotBytes ≤ M := le_max_right _ _
  rcases sizeLoop_spec M M (bucketLen * ttSlotBytes) 0 (by omega) hbase with
    ⟨j, h1, h2, h3, h4⟩
  refine ⟨j, ?_, ?_, ?_, ?_⟩
  · rw [hsize, h1]
  · rw [← h1]
    exact h4 hMb
  · intro k' hk'
    by_contra hgt
    push_neg at hgt
    have hmono : bucketLen * ttSlotBytes * 2 ^ (j + 1) ≤ bucketLen * ttSlotBytes * 2 ^ k' :=
      Nat.mul_le_mul_left _ (Nat.pow_le_pow_right (by norm_num) hgt)
    have : (sizeLoop M M (bucketLen * ttSlotBytes) 0).1 +
        (sizeLoop M M (bucketLen * ttSlotBytes) 0).1 ≤ M := by
      rw [h1]
      have : bucketLen * ttSlotBytes * 2 ^ (j+1) = bucketLen * ttSlotBytes * 2 ^ j +
          bucketLen * ttSlotBytes * 2 ^ j := by ring
      omega
    exact h3 this
  · rw [hsize, hmask, h1, h2]
    have hq : 1 ≤ 2 ^ j := Nat.one_le_two_pow
    simp only [bucketLen, ttSlotBytes]
    omega

theorem expandGo_spec (m : Nat) (slots : Nat → TTSlot) :
    ∀ count, (∀ n, n < count → expandGo (2 ^ m - 1) slots count n = slots (n % 2 ^ m)) ∧
      (∀ n, count ≤ n → expandGo (2 ^ m - 1) slots count n = slots n) := by
  intro count
  induction count with
  | zero => exact ⟨fun n hn => by omega, fun n _ => rfl⟩
  | succ k ih =>
    have hmod : k &&& (2 ^ m - 1) = k % 2 ^ m := Nat.and_pow_two_sub_one_eq_mod k m
    have hpos : 0 < 2 ^ m := Nat.pos_pow_of_pos m (by norm_num)
    constructor
    · intro n hn
      simp only [expandGo]
      by_cases he : n = k
      · subst he
        rw [if_pos rfl, hmod]
        by_cases hsm : n % 2 ^ m = n
        · rw [hsm]
          exact (ih.2 n (le_refl n)).trans (by rw [← hsm])
        · have hlt : n % 2 ^ m < n := by
            have := Nat.mod_le n (2 ^ m)
            rcases Nat.lt_or_ge n (2 ^ m) with h | h
            · exact absurd (Nat.mod_eq_of_lt h) hsm
            · have := Nat.mod_lt n hpos
              omega
          rw [ih.1 (n % 2 ^ m) (by omega), Nat.mod_mod_of_dvd]
          exact dvd_refl _
      · rw [if_neg he]
        exact ih.1 n (by omega)
    · intro n hn
      simp only [expandGo]
      rw [if_neg (by omega)]
      exact ih.2 n (by omega)

theorem shrinkGo_spec (C : TTConsts) (now : Nat) (m : Nat) (slots : Nat → TTSlot) :
    ∀ K,
      (∀ n, 2 ^ m ≤ n → shrinkGo C now (2 ^ m - 1) slots K n = slots n) ∧
      (∀ t, t < 2 ^ m → ∃ jj, (jj = t ∨ (jj < K ∧ jj % 2 ^ m = t)) ∧
        shrinkGo C now (2 ^ m - 1) slots K t = slots jj ∧
        (∀ j', (j' = t ∨ (j' < K ∧ j' % 2 ^ m = t)) →
          prioSlot C now (slots j') ≤ prioSlot C now (slots jj))) := by
  intro K
  induction K with
  | zero =>
    refine ⟨fun n _ => rfl, fun t ht => ⟨t, Or.inl rfl, rfl, ?_⟩⟩
    intro j' hj'
    rcases hj' with h | h
    · rw [h]
    · omega
  | succ K ih =>
    have hpos : 0 < 2 ^ m := Nat.pos_pow_of_pos m (by norm_num)
    have hmod : K &&& (2 ^ m - 1) = K % 2 ^ m := Nat.and_pow_two_sub_one_eq_mod K m
    have htgt : K % 2 ^ m < 2 ^ m := Nat.mod_lt K hpos
    by_cases hK : K < 2 ^ m
    · -- iteration K compares the target slot with itself: no change
      have hKm : K % 2 ^ m = K := Nat.mod_eq_of_lt hK
      have hnoop : shrinkGo C now (2 ^ m - 1) slots (K + 1)
          = shrinkGo C now (2 ^ m - 1) slots K := by
        simp only [shrinkGo, hmod, hKm]
        rw [if_neg (lt_irrefl _)]
      rw [hnoop]
      refine ⟨ih.1, fun t ht => ?_⟩
      rcases ih.2 t ht with ⟨jj, hjj, hseq, hmax⟩
      refine ⟨jj, ?_, hseq, ?_⟩
      · rcases hjj with h | h
        · exact Or.inl h
        · exact Or.inr ⟨by omega, h.2⟩
      · intro j' hj'
        rcases hj' with h | h
        · exact hmax j' (Or.inl h)
        · rcases Nat.lt_or_ge j' K with h2 | h2
          · exact hmax j' (Or.inr ⟨h2, h.2⟩)
          · have hjk : j' = K := by omega
            have h3 : K % 2 ^ m = t := by rw [← hjk]; exact h.2
            have h4 : j' = t := by rw [hjk, ← hKm]; exact h3
            exact hmax j' (Or.inl h4)
    · -- K ≥ 2^m : a genuine alias comparison against slot K
      push_neg at hK
      have hsK : shrinkGo C now (2 ^ m - 1) slots K K = slots K := ih.1 K hK
      rcases ih.2 (K % 2 ^ m) htgt with ⟨jj, hjj, hseq, hmax⟩
      by_cases hlt : prioSlot C now (slots jj) < prioSlot C now (slots K)
      · -- overwrite the target with slot K
        have hstep : shrinkGo C now (2 ^ m - 1) slots (K + 1)
            = fun n => if n = K % 2 ^ m then shrinkGo C now (2 ^ m - 1) slots K K
                       else shrinkGo C now (2 ^ m - 1) slots K n := by
          simp only [shrinkGo, hmod]
          rw [if_pos (by rw [hseq, hsK]; exact hlt)]
        constructor
        · intro n hn
          rw [hstep]
          simp only
          rw [if_neg (by omega), ih.1 n hn]
        · intro t ht
          by_cases hteq : t = K % 2 ^ m
          · refine ⟨K, Or.inr ⟨by omega, hteq.symm⟩, ?_, ?_⟩
            · rw [hstep]
              simp only
              rw [if_pos hteq]
              exact hsK
            · intro j' hj'
              rcases hj' with h | h
              · have h5 : j' = K % 2 ^ m := h.trans hteq
                exact le_of_lt (lt_of_le_of_lt (hmax j' (Or.inl h5)) hlt)
              · rcases Nat.lt_or_ge j' K with h2 | h2
                · have h5 : j' % 2 ^ m = K % 2 ^ m := h.2.trans hteq
                  exact le_of_lt (lt_of_le_of_lt (hmax j' (Or.inr ⟨h2, h5⟩)) hlt)
                · have hjk : j' = K := by omega
                  rw [hjk]
          · rcases ih.2 t ht with ⟨jj2, hjj2, hseq2, hmax2⟩
            refine ⟨jj2, ?_, ?_, ?_⟩
            · rcases hjj2 with h | h
              · exact Or.inl h
              · exact Or.inr ⟨by omega, h.2⟩
            · rw [hstep]
              simp only
              rw [if_neg (fun hh => hteq hh)]
              exact hseq2
            · intro j' hj'
              rcases hj' with h | h
              · exact hmax2 j' (Or.inl h)
              · rcases Nat.lt_or_ge j' K with h2 | h2
                · exact hmax2 j' (Or.inr ⟨h2, h.2⟩)
                · have hjk : j' = K := by omega
                  have h5 : t = K % 2 ^ m := by rw [← h.2, hjk]
                  exact absurd h5 hteq
      · -- keep the current target
        have hstep : shrinkGo C now (2 ^ m - 1) slots (K + 1)
            = shrinkGo C now (2 ^ m - 1) slots K := by
          simp only [shrinkGo, hmod]
          rw [if_neg (by rw [hseq, hsK]; exact hlt)]
        rw [hstep]
        refine ⟨ih.1, fun t ht => ?_⟩
        by_cases hteq : t = K % 2 ^ m
        · refine ⟨jj, ?_, ?_, ?_⟩
          · rcases hjj with h | h
            · exact Or.inl (h.trans hteq.symm)
            · exact Or.inr ⟨by omega, h.2.trans hteq.symm⟩
          · rw [hteq]
            exact hseq
          · intro j' hj'
            rcases hj' with h | h
            · exact hmax j' (Or.inl (h.trans hteq))
            · rcases Nat.lt_or_ge j' K with h2 | h2
              · exact hmax j' (Or.inr ⟨h2, h.2.trans hteq⟩)
              · have hjk : j' = K := by omega
                rw [hjk]
                exact le_of_not_lt hlt
        · rcases ih.2 t ht with ⟨jj2, hjj2, hseq2, hmax2⟩
          refine ⟨jj2, ?_, hseq2, ?_⟩
          · rcases hjj2 with h | h
            · exact Or.inl h
            · exact Or.inr ⟨by omega, h.2⟩
          · intro j' hj'
            rcases hj' with h | h
            · exact hmax2 j' (Or.inl h)
            · rcases Nat.lt_or_ge j' K with h2 | h2
              · exact hmax2 j' (Or.inr ⟨h2, h.2⟩)
              · have hjk : j' = K := by omega
                have h5 : t = K % 2 ^ m := by rw [← h.2, hjk]
                exact absurd h5 hteq

/-- C8: when `ttSetSize` grows an allocated table whose mask has the
well-formed shape `bucketLen * (2^a - 1)`, every slot index `i` of the
new table holds the slot the old table held at index
`i mod (old slot count)`: the newly created slots replicate the modular
image of the previous table under the previous mask. -/
theorem ttSetSize_expand_replicates (C : TTConsts) (E : Engine) (reqSize : Nat)
    (halloc : E.tt.allocated = true)
    (hmask : ∃ a, E.tt.mask = bucketLen * (2 ^ a - 1))
    (hgrow : E.tt.size < (ttSetSize C E reqSize).tt.size) :
    ∀ i, i < (ttSetSize C E reqSize).tt.mask + bucketLen →
      (ttSetSize C E reqSize).tt.slots i = E.tt.slots (i % (E.tt.mask + bucketLen)) := by
  obtain ⟨a, ha⟩ := hmask
  have hsz : (ttSetSize C E reqSize).tt.size =
      (sizeLoop (max reqSize (bucketLen * ttSlotBytes)) (max reqSize (bucketLen * ttSlotBytes))
        (bucketLen * ttSlotBytes) 0).1 := by
    simp [ttSetSize]
  have hmk : (ttSetSize C E reqSize).tt.mask =
      (sizeLoop (max reqSize (bucketLen * ttSlotBytes)) (max reqSize (bucketLen * ttSlotBytes))
        (bucketLen * ttSlotBytes) 0).2 := by
    simp [ttSetSize]
  rw [hsz] at hgrow
  have hnotshrink : ¬ ((sizeLoop (max reqSize (bucketLen * ttSlotBytes))
      (max reqSize (bucketLen * ttSlotBytes)) (bucketLen * ttSlotBytes) 0).1 < E.tt.size) := by
    omega
  have h24 : E.tt.mask + bucketLen = 2 ^ (a + 2) := by
    have hp : (2:Nat) ^ (a + 2) = 2 ^ a * 4 := by rw [pow_add]; norm_num
    have hq : 1 ≤ 2 ^ a := Nat.one_le_two_pow
    simp only [ha, bucketLen]
    omega
  have hslots : (ttSetSize C E reqSize).tt.slots
      = expandGo (E.tt.mask + bucketLen - 1) E.tt.slots
          ((sizeLoop (max reqSize (bucketLen * ttSlotBytes))
            (max reqSize (bucketLen * ttSlotBytes)) (bucketLen * ttSlotBytes) 0).2
            + bucketLen) := by
    simp only [ttSetSize, halloc, if_true, if_neg hnotshrink, if_pos hgrow]
  intro i hi
  rw [hslots]
  have hm1 : E.tt.mask + bucketLen - 1 = 2 ^ (a + 2) - 1 := by omega
  rw [hm1]
  have h := (expandGo_spec (a + 2) E.tt.slots
    ((sizeLoop (max reqSize (bucketLen * ttSlotBytes))
      (max reqSize (bucketLen * ttSlotBytes)) (bucketLen * ttSlotBytes) 0).2 + bucketLen)).1
  rw [h24]
  exact h i (by rw [← hmk]; exact hi)

/-- C6: when `ttSetSize` shrinks an allocated table (whose `size` field
is consistent with its mask), every index `t` of the new (smaller) table
ends up holding an old-table slot of its alias class — an index congruent
to `t` modulo the new slot count — whose `prio` is maximal among all
old-table slots of that class (the slot already at `t` included). -/
theorem ttSetSize_shrink_keeps_max (C : TTConsts) (E : Engine) (reqSize : Nat)
    (halloc : E.tt.allocated = true)
    (hsz0 : E.tt.size = (E.tt.mask + bucketLen) * ttSlotBytes)
    (hshrink : (ttSetSize C E reqSize).tt.size < E.tt.size) :
    ∀ t, t < (ttSetSize C E reqSize).tt.mask + bucketLen →
      ∃ jj, jj < E.tt.mask + bucketLen ∧
        jj % ((ttSetSize C E reqSize).tt.mask + bucketLen) = t ∧
        (ttSetSize C E reqSize).tt.slots t = E.tt.slots jj ∧
        (∀ j', j' < E.tt.mask + bucketLen →
          j' % ((ttSetSize C E reqSize).tt.mask + bucketLen) = t →
          prioSlot C E.tt.now (E.tt.slots j') ≤ prioSlot C E.tt.now (E.tt.slots jj)) := by
  have hsz : (ttSetSize C E reqSize).tt.size =
      (sizeLoop (max reqSize (bucketLen * ttSlotBytes)) (max reqSize (bucketLen * ttSlotBytes))
        (bucketLen * ttSlotBytes) 0).1 := by
    simp [ttSetSize]
  have hmk : (ttSetSize C E reqSize).tt.mask =
      (sizeLoop (max reqSize (bucketLen * ttSlotBytes)) (max reqSize (bucketLen * ttSlotBytes))
        (bucketLen * ttSlotBytes) 0).2 := by
    simp [ttSetSize]
  rw [hsz] at hshrink
  have hnotgrow : ¬ (E.tt.size < (sizeLoop (max reqSize (bucketLen * ttSlotBytes))
      (max reqSize (bucketLen * ttSlotBytes)) (bucketLen * ttSlotBytes) 0).1) := by
    omega
  have hbase : 0 < bucketLen * ttSlotBytes := by norm_num [bucketLen, ttSlotBytes]
  rcases sizeLoop_spec (max reqSize (bucketLen * ttSlotBytes))
      (max reqSize (bucketLen * ttSlotBytes)) (bucketLen * ttSlotBytes) 0 (by omega) hbase with
    ⟨j, h1, h2, _h3, _h4⟩
  have hq : 1 ≤ 2 ^ j := Nat.one_le_two_pow
  have hnc : (sizeLoop (max reqSize (bucketLen * ttSlotBytes))
      (max reqSize (bucketLen * ttSlotBytes)) (bucketLen * ttSlotBytes) 0).2 + bucketLen
      = 2 ^ (j + 2) := by
    rw [h2]
    have hp : (2:Nat) ^ (j + 2) = 2 ^ j * 4 := by rw [pow_add]; norm_num
    simp only [bucketLen]
    omega
  have hnm1 : (sizeLoop (max reqSize (bucketLen * ttSlotBytes))
      (max reqSize (bucketLen * ttSlotBytes)) (bucketLen * ttSlotBytes) 0).1
      = 2 ^ (j + 2) * ttSlotBytes := by
    rw [h1]
    have hp : (2:Nat) ^ (j + 2) = 2 ^ j * 4 := by rw [pow_add]; norm_num
    simp only [bucketLen, ttSlotBytes]
    omega
  have hcnt : 2 ^ (j + 2) < E.tt.mask + bucketLen := by
    rw [hnm1, hsz0] at hshrink
    have : (0:Nat) < ttSlotBytes := by norm_num [ttSlotBytes]
    exact lt_of_mul_lt_mul_right hshrink (by omega)
  have hslots : (ttSetSize C E reqSize).tt.slots
      = shrinkGo C E.tt.now ((sizeLoop (max reqSize (bucketLen * ttSlotBytes))
          (max reqSize (bucketLen * ttSlotBytes)) (bucketLen * ttSlotBytes) 0).2 + bucketLen - 1)
          E.tt.slots (E.tt.mask + bucketLen) := by
    simp only [ttSetSize, halloc, if_true, if_pos hshrink, if_neg hnotgrow]
  intro t ht
  rw [hmk, hnc] at ht
  have hm1 : (sizeLoop (max reqSize (bucketLen * ttSlotBytes))
      (max reqSize (bucketLen * ttSlotBytes)) (bucketLen * ttSlotBytes) 0).2 + bucketLen - 1
      = 2 ^ (j + 2) - 1 := by omega
  rcases (shrinkGo_spec C E.tt.now (j + 2) E.tt.slots (E.tt.mask + bucketLen)).2 t ht with
    ⟨jj, hjj, hseq, hmax⟩
  refine ⟨jj, ?_, ?_, ?_, ?_⟩
  · rcases hjj with h | h
    · omega
    · exact h.1
  · rw [hmk, hnc]
    rcases hjj with h | h
    · rw [h]
      exact Nat.mod_eq_of_lt ht
    · exact h.2
  · rw [hslots, hm1]
    exact hseq
  · intro j' hj1 hj2
    rw [hmk, hnc] at hj2
    exact hmax j' (Or.inr ⟨hj1, hj2⟩)

/-- Witness for C8: growing the four-slot `w8Engine` to 256 bytes
replicates the old four slots four times. -/
theorem ttSetSize_expand_replicates_witness :
    w8Engine.tt.allocated = true ∧
    (∃ a, w8Engine.tt.mask = bucketLen * (2 ^ a - 1)) ∧
    w8Engine.tt.size < (ttSetSize wConsts w8Engine 256).tt.size ∧
    (∀ i, i < (ttSetSize wConsts w8Engine 256).tt.mask + bucketLen →
      (ttSetSize wConsts w8Engine 256).tt.slots i
        = w8Engine.tt.slots (i % (w8Engine.tt.mask + bucketLen))) :=
  ⟨by decide, ⟨0, by decide⟩, by decide,
    ttSetSize_expand_replicates wConsts w8Engine 256 (by decide) ⟨0, by decide⟩ (by decide)⟩

/-- Witness for C6: shrinking the eight-slot `w6Engine` to one bucket
keeps the higher-priority alias of each pair. -/
theorem ttSetSize_shrink_keeps_max_witness :
    w6Engine.tt.allocated = true ∧
    w6Engine.tt.size = (w6Engine.tt.mask + bucketLen) * ttSlotBytes ∧
    (ttSetSize wConsts w6Engine 64).tt.size < w6Engine.tt.size ∧
    (∀ t, t < (ttSetSize wConsts w6Engine 64).tt.mask + bucketLen →
      ∃ jj, jj < w6Engine.tt.mask + bucketLen ∧
        jj % ((ttSetSize wConsts w6Engine 64).tt.mask + bucketLen) = t ∧
        (ttSetSize wConsts w6Engine 64).tt.slots t = w6Engine.tt.slots jj ∧
        (∀ j', j' < w6Engine.tt.mask + bucketLen →
          j' % ((ttSetSize wConsts w6Engine 64).tt.mask + bucketLen) = t →
          prioSlot wConsts w6Engine.tt.now (w6Engine.tt.slots j')
            ≤ prioSlot wConsts w6Engine.tt.now (w6Engine.tt.slots jj))) :=
  ⟨by decide, by decide, by decide,
    ttSetSize_shrink_keeps_max wConsts w6Engine 64 (by decide) (by decide) (by decide)⟩

end Floyd
